import Mathlib

/-!
Shallow embedding of the `ctxdata` request-metadata store.

Two implementations from the repository are modelled:

* `Ctxdata.Mutex` — the map-plus-sequence-number implementation
  (`src/data.go`).  The Go map `data map[string]pair` is represented as an
  association list with unique keys (a representation of the same partial
  map); `Set` performs the Go map assignment
  `d.data[key] = pair{value, d.order}` — replace the binding when the key
  is present, otherwise add it — followed by `d.order++`.  A possibly-nil
  `*Data` receiver is represented by `Option Data`.

* `Ctxdata.Channel` — the channel-and-slice implementation
  (`src/unnamed/part_001`).  The store state is the slice of `KeyVal`
  pairs held in the buffered channel; values are taken at type `String`,
  the instantiation all claims use.

Go maps are unordered, so any association-list order represents the same
map; `orderedKeys` recovers the enumeration order by sorting on the stored
sequence numbers, exactly as `sort.Slice` does in the source.  The live
sequence numbers are pairwise distinct in every reachable state, so every
correct sort produces the same output; insertion sort stands in for
`sort.Slice`.
-/

namespace Ctxdata

namespace Mutex

/-- The `pair` stored per key in `data.go` (`s string; i int`), bundled
with its key for the association-list representation of the Go map. -/
structure Entry where
  key : String
  s : String
  i : Nat
deriving DecidableEq, Repr

/-- `Data` (data.go lines 29–33): the map from key to `pair` plus the
write counter `order`.  The map is represented as an association list
with unique keys. -/
structure Data where
  data : List Entry
  order : Nat
deriving DecidableEq, Repr

/-- `New` (data.go lines 44–49): a fresh, empty store. -/
def New : Data := ⟨[], 0⟩

/-- Go map assignment `m[key] = pair{value, n}`: replace the binding for
`key` when one is present, otherwise add one. -/
def mapAssign : List Entry → String → String → Nat → List Entry
  | [], key, value, n => [⟨key, value, n⟩]
  | e :: es, key, value, n =>
    if e.key = key then ⟨key, value, n⟩ :: es else e :: mapAssign es key value n

/-- Go map read `p, ok := m[key]`. -/
def mapLookup : List Entry → String → Option Entry
  | [], _ => none
  | e :: es, key => if e.key = key then some e else mapLookup es key

/-- Go map index `m[key].s`: the zero value (empty string) when the key
is absent. -/
def indexS (l : List Entry) (key : String) : String :=
  match mapLookup l key with
  | some p => p.s
  | none => ""

/-- The mutation performed by `Set` on an attached store (data.go lines
71–72): `d.data[key] = pair{value, d.order}; d.order++`. -/
def Data.set (d : Data) (key value : String) : Data :=
  ⟨mapAssign d.data key value d.order, d.order + 1⟩

/-- The `error` results a `Data` method of `data.go` can return besides
nil: only `ErrNilData` (data.go line 15). -/
inductive Err where
  | errNilData
deriving DecidableEq, Repr

/-- `Set` (data.go lines 63–75): a nil receiver returns `ErrNilData` and
mutates nothing; otherwise the map assignment and counter increment run
and the returned error is nil.  The result pairs the receiver's state
after the call with the returned error. -/
def Set : Option Data → String → String → Option Data × Option Err
  | none, _, _ => (none, some .errNilData)
  | some d, key, value => (some (d.set key value), none)

/-- `Get` (data.go lines 78–88): a nil receiver returns `("", false)`;
otherwise `p, ok := d.data[key]; return p.s, ok`. -/
def Get : Option Data → String → String × Bool
  | none, _ => ("", false)
  | some d, key =>
    match mapLookup d.data key with
    | some p => (p.s, true)
    | none => ("", false)

/-- `GetDefault` (data.go lines 92–105). -/
def GetDefault : Option Data → String → String → String
  | none, _, defaultValue => defaultValue
  | some d, key, defaultValue =>
    match mapLookup d.data key with
    | some p => p.s
    | none => defaultValue

/-- `GetAll` (data.go lines 109–123): a nil receiver returns the nil map,
whose observable content (length, iteration, indexing) is that of the
empty map; otherwise every key/value pair is copied into a fresh map.
The returned Go map is modelled by its content, one pair per key. -/
def GetAll : Option Data → List (String × String)
  | none => []
  | some d => d.data.map fun e => (e.key, e.s)

/-- One step of the insertion sort modelling `sort.Slice` with comparator
`intermediate[i].i < intermediate[j].i` (data.go lines 174–176). -/
def insertBySeq (x : Entry) : List Entry → List Entry
  | [] => [x]
  | y :: ys => if x.i < y.i then x :: y :: ys else y :: insertBySeq x ys

/-- Sorting the live entries by sequence number.  The sequence numbers of
live entries are pairwise distinct in every reachable state, so every
correct sort — in particular `sort.Slice` — produces this output. -/
def sortBySeq : List Entry → List Entry
  | [] => []
  | x :: xs => insertBySeq x (sortBySeq xs)

/-- `orderedKeys` (data.go lines 168–184): the keys sorted by the
sequence number stored with each entry. -/
def Data.orderedKeys (d : Data) : List String :=
  (sortBySeq d.data).map Entry.key

/-- `KeyValue` (data.go lines 126–129). -/
structure KeyValue where
  Key : String
  Value : String
deriving DecidableEq, Repr

/-- `GetAllSlice` (data.go lines 133–147): a nil receiver returns the nil
slice (content: empty); otherwise one `KeyValue{k, d.data[k].s}` per
ordered key. -/
def GetAllSlice : Option Data → List KeyValue
  | none => []
  | some d => d.orderedKeys.map fun k => ⟨k, indexS d.data k⟩

/-- The loop of `Walk` (data.go lines 159–163) over a list of keys:
invoke `fn` on each key and `d.data[k].s`, aborting with the first
non-nil error. -/
def walkLoop {ε : Type} (l : List Entry) (fn : String → String → Option ε) :
    List String → Option ε
  | [] => none
  | k :: ks =>
    match fn k (indexS l k) with
    | some e => some e
    | none => walkLoop l fn ks

/-- The `error` results `Walk` can return besides nil: `ErrNilData` or an
error produced by the caller-supplied function. -/
inductive WalkErr (ε : Type) where
  | errNilData
  | fnErr (e : ε)
deriving DecidableEq, Repr

/-- `Walk` (data.go lines 151–166): a nil receiver returns `ErrNilData`;
otherwise the visitor runs over the ordered keys and the first non-nil
error it returns is propagated. -/
def Walk {ε : Type} : Option Data → (String → String → Option ε) → Option (WalkErr ε)
  | none, _ => some .errNilData
  | some d, fn =>
    match walkLoop d.data fn d.orderedKeys with
    | some e => some (.fnErr e)
    | none => none

/-- Observer for `Walk`: the same loop, also recording the (key, value)
arguments the visitor is invoked with, in invocation order. -/
def walkTrace {ε : Type} (l : List Entry) (fn : String → String → Option ε) :
    List String → List (String × String) × Option ε
  | [] => ([], none)
  | k :: ks =>
    match fn k (indexS l k) with
    | some e => ([(k, indexS l k)], some e)
    | none =>
      let r := walkTrace l fn ks
      ((k, indexS l k) :: r.1, r.2)

/-- `Walk` on a possibly-nil receiver, instrumented with the visitor
invocations: a nil receiver returns `ErrNilData` without invoking the
visitor at all; otherwise the invocations are those of the loop. -/
def WalkTrace {ε : Type} : Option Data → (String → String → Option ε) →
    List (String × String) × Option (WalkErr ε)
  | none, _ => ([], some .errNilData)
  | some d, fn =>
    let r := walkTrace d.data fn d.orderedKeys
    (r.1, r.2.map WalkErr.fnErr)

/-- Applying a sequence of `Set` calls to an attached store. -/
def mApply : List (String × String) → Data → Data
  | [], d => d
  | (key, value) :: ops, d => mApply ops (d.set key value)

/-- The operations a caller can perform on an attached store; the read
operations take the store's read lock and leave its state unchanged. -/
inductive Op where
  | set (key value : String)
  | get (key : String)
  | getDefault (key fallback : String)
  | getAll
  | getAllSlice
  | walk
deriving DecidableEq, Repr

/-- The state of the store after one operation: only `Set` mutates. -/
def stepOp (d : Data) : Op → Data
  | .set key value => d.set key value
  | _ => d

/-- The state of the store after a sequence of operations. -/
def runOps : List Op → Data → Data
  | [], d => d
  | op :: ops, d => runOps ops (stepOp d op)

/-- The keys of the live entries. -/
def keysOf (l : List Entry) : List String := l.map Entry.key

/-- The sequence numbers of the live entries. -/
def seqsOf (l : List Entry) : List Nat := l.map Entry.i

/-- The store invariant (spec §3): every key has at most one live entry,
the live sequence numbers are pairwise distinct, and all of them lie
below the write counter. -/
def Inv (d : Data) : Prop :=
  (keysOf d.data).Nodup ∧ (seqsOf d.data).Nodup ∧ ∀ e ∈ d.data, e.i < d.order

instance (d : Data) : Decidable (Inv d) := by
  unfold Inv
  infer_instance

/-- The content of a `GetAllSlice` snapshot as plain pairs. -/
def asPairs (l : List KeyValue) : List (String × String) :=
  l.map fun kv => (kv.Key, kv.Value)

/-- Heap model for snapshot independence of data.go's read results.  The
`Data` object is mutated in place by `Set` (holding its mutex, it writes
only `d.data` and `d.order`); every map returned by `GetAll` and every
slice returned by `GetAllSlice` is a fresh allocation (`make`, data.go
lines 117 and 141) that no later `Set` writes to, modelled as new heap
cells in `maps` and `slices`. -/
structure MMem where
  store : Data
  maps : List (List (String × String))
  slices : List (List KeyValue)
deriving Repr

/-- Reading the map at a heap address. -/
def readMapCell (m : MMem) (a : Nat) : List (String × String) :=
  (m.maps[a]?).getD []

/-- Reading the slice at a heap address. -/
def readSliceCell (m : MMem) (a : Nat) : List KeyValue :=
  (m.slices[a]?).getD []

/-- `Set` acting on the heap: only the `Data` object is written. -/
def mmemSet (m : MMem) (key value : String) : MMem :=
  ⟨m.store.set key value, m.maps, m.slices⟩

/-- `GetAll` acting on the heap: a fresh map cell holding the copied
pairs is allocated and its address returned. -/
def mmemGetAll (m : MMem) : Nat × MMem :=
  (m.maps.length, ⟨m.store, m.maps ++ [GetAll (some m.store)], m.slices⟩)

/-- `GetAllSlice` acting on the heap: a fresh slice cell holding the
ordered copy is allocated and its address returned. -/
def mmemGetAllSlice (m : MMem) : Nat × MMem :=
  (m.slices.length,
   ⟨m.store, m.maps, m.slices ++ [GetAllSlice (some m.store)]⟩)

/-- A sequence of `Set` calls acting on the heap. -/
def mmemApply : List (String × String) → MMem → MMem
  | [], m => m
  | (key, value) :: ops, m => mmemApply ops (mmemSet m key value)

/-- The ordered key/value content of an attached store: the live entries
sorted by sequence number, projected to pairs. -/
def orderedPairs (d : Data) : List (String × String) :=
  (sortBySeq d.data).map fun e => (e.key, e.s)

/-- The entries whose key differs from `key`. -/
def dropKey (l : List Entry) (key : String) : List Entry :=
  l.filter fun e => !(e.key == key)

/-- Comparing entries by sequence number, weakly. -/
def seqLe (a b : Entry) : Prop := a.i ≤ b.i

/-- Comparing entries by sequence number, strictly. -/
def seqLt (a b : Entry) : Prop := a.i < b.i

instance : IsAntisymm Entry seqLt := ⟨fun _ _ h h' => (Nat.lt_asymm h h').elim⟩

theorem insertBySeq_perm (x : Entry) (l : List Entry) :
    (insertBySeq x l).Perm (x :: l) := by
  induction l with
  | nil => simp [insertBySeq]
  | cons y ys ih =>
    by_cases h : x.i < y.i
    · simp [insertBySeq, h]
    · rw [insertBySeq, if_neg h]
      exact (ih.cons y).trans (List.Perm.swap x y ys)

theorem sortBySeq_perm (l : List Entry) : (sortBySeq l).Perm l := by
  induction l with
  | nil => simp [sortBySeq]
  | cons x xs ih => exact (insertBySeq_perm x (sortBySeq xs)).trans (ih.cons x)

theorem insertBySeq_sorted {l : List Entry} (x : Entry) (h : List.Sorted seqLe l) :
    List.Sorted seqLe (insertBySeq x l) := by
  induction l with
  | nil => simp [insertBySeq, List.sorted_singleton]
  | cons y ys ih =>
    rcases List.sorted_cons.mp h with ⟨hy, hys⟩
    by_cases hx : x.i < y.i
    · rw [insertBySeq, if_pos hx]
      refine List.sorted_cons.mpr ⟨?_, h⟩
      intro b hb
      rcases List.mem_cons.mp hb with rfl | hb
      · exact Nat.le_of_lt hx
      · exact Nat.le_trans (Nat.le_of_lt hx) (hy b hb)
    · rw [insertBySeq, if_neg hx]
      refine List.sorted_cons.mpr ⟨?_, ih hys⟩
      intro b hb
      rcases List.mem_cons.mp ((insertBySeq_perm x ys).mem_iff.mp hb) with rfl | hb'
      · exact Nat.le_of_not_lt hx
      · exact hy b hb'

theorem sortBySeq_sorted (l : List Entry) : List.Sorted seqLe (sortBySeq l) := by
  induction l with
  | nil => simp [sortBySeq, List.sorted_nil]
  | cons x xs ih => exact insertBySeq_sorted x ih

theorem sorted_seqLt_of_nodup {l : List Entry} (hs : List.Sorted seqLe l)
    (hn : (seqsOf l).Nodup) : List.Sorted seqLt l := by
  have hn' : l.Pairwise fun a b => a.i ≠ b.i := List.pairwise_map.mp hn
  exact (hs.and hn').imp fun h => Nat.lt_of_le_of_ne h.1 h.2

theorem key_not_mem_dropKey (l : List Entry) (key : String) :
    key ∉ (dropKey l key).map Entry.key := by
  intro h
  obtain ⟨a, ha, hak⟩ := List.mem_map.mp h
  have := List.of_mem_filter ha
  simp [hak] at this

theorem dropKey_sublist (l : List Entry) (key : String) :
    (dropKey l key).Sublist l :=
  List.filter_sublist l

theorem mapAssign_perm {l : List Entry} (key value : String) (n : Nat)
    (h : (keysOf l).Nodup) :
    (mapAssign l key value n).Perm (dropKey l key ++ [⟨key, value, n⟩]) := by
  induction l with
  | nil => simp [mapAssign, dropKey]
  | cons e es ih =>
    simp only [keysOf, List.map_cons, List.nodup_cons] at h
    obtain ⟨hk, hn⟩ := h
    by_cases hke : e.key = key
    · rw [mapAssign, if_pos hke]
      have hes : dropKey es key = es := by
        apply List.filter_eq_self.mpr
        intro a ha
        simp only [Bool.not_eq_true', beq_eq_false_iff_ne, ne_eq]
        intro hak
        exact hk (hke ▸ hak ▸ List.mem_map_of_mem Entry.key ha)
      have hdrop : dropKey (e :: es) key = es := by
        rw [dropKey, List.filter_cons, if_neg (by simp [hke])]
        exact hes
      rw [hdrop]
      exact (List.perm_append_singleton _ _).symm
    · rw [mapAssign, if_neg hke]
      have hdrop : dropKey (e :: es) key = e :: dropKey es key := by
        rw [dropKey, List.filter_cons, if_pos (by simp [hke])]
        rfl
      rw [hdrop, List.cons_append]
      exact (ih hn).cons e

theorem keys_nodup_mapAssign {l : List Entry} (key value : String) (n : Nat)
    (h : (keysOf l).Nodup) : (keysOf (mapAssign l key value n)).Nodup := by
  have hp := (mapAssign_perm key value n h).map Entry.key
  apply hp.nodup_iff.mpr
  rw [List.map_append]
  apply List.Nodup.append
  · exact (((dropKey_sublist l key).map Entry.key).nodup h)
  · exact List.nodup_singleton key
  · intro a ha hb
    simp only [List.map_cons, List.map_nil, List.mem_singleton] at hb
    exact key_not_mem_dropKey l key (hb ▸ ha)

theorem seqs_nodup_mapAssign {l : List Entry} (key value : String) {n : Nat}
    (hk : (keysOf l).Nodup) (hs : (seqsOf l).Nodup) (hlt : ∀ e ∈ l, e.i < n) :
    (seqsOf (mapAssign l key value n)).Nodup := by
  have hp := (mapAssign_perm key value n hk).map Entry.i
  apply hp.nodup_iff.mpr
  rw [List.map_append]
  apply List.Nodup.append
  · exact ((dropKey_sublist l key).map Entry.i).nodup hs
  · exact List.nodup_singleton n
  · intro a ha hb
    simp only [List.map_cons, List.map_nil, List.mem_singleton] at hb
    obtain ⟨e, he, hei⟩ := List.mem_map.mp ha
    have : e.i < n := hlt e ((dropKey_sublist l key).subset he)
    omega

theorem Inv.set {d : Data} (h : Inv d) (key value : String) :
    Inv (d.set key value) := by
  obtain ⟨hk, hs, hlt⟩ := h
  refine ⟨keys_nodup_mapAssign key value d.order hk,
    seqs_nodup_mapAssign key value hk hs hlt, ?_⟩
  intro e he
  have := (mapAssign_perm key value d.order hk).mem_iff.mp he
  rcases List.mem_append.mp this with h1 | h1
  · exact Nat.lt_succ_of_lt (hlt e ((dropKey_sublist d.data key).subset h1))
  · rw [List.mem_singleton] at h1
    subst h1
    exact Nat.lt_succ_self d.order

theorem seqs_nodup_sortBySeq {l : List Entry} (h : (seqsOf l).Nodup) :
    (seqsOf (sortBySeq l)).Nodup :=
  (((sortBySeq_perm l).map Entry.i).nodup_iff).mpr h

theorem sorted_seqLt_sortBySeq {l : List Entry} (h : (seqsOf l).Nodup) :
    List.Sorted seqLt (sortBySeq l) :=
  sorted_seqLt_of_nodup (sortBySeq_sorted l) (seqs_nodup_sortBySeq h)

/-- Sorting the map content after `d.data[key] = pair{value, d.order}`:
every other live entry keeps its relative position, and the assigned key
lands at the end of the order, its sequence number being the largest. -/
theorem sortBySeq_mapAssign {d : Data} (h : Inv d) (key value : String) :
    sortBySeq (mapAssign d.data key value d.order)
      = dropKey (sortBySeq d.data) key ++ [⟨key, value, d.order⟩] := by
  obtain ⟨hk, hs, hlt⟩ := h
  apply List.eq_of_perm_of_sorted (r := seqLt)
  · have p1 := sortBySeq_perm (mapAssign d.data key value d.order)
    have p2 := mapAssign_perm key value d.order hk
    have p3 : (dropKey d.data key).Perm (dropKey (sortBySeq d.data) key) :=
      List.Perm.filter _ (sortBySeq_perm d.data).symm
    exact p1.trans (p2.trans (p3.append_right _))
  · apply sorted_seqLt_sortBySeq
    exact seqs_nodup_mapAssign key value hk hs hlt
  · have hsorted : List.Sorted seqLt (sortBySeq d.data) := sorted_seqLt_sortBySeq hs
    have h1 : List.Sorted seqLt (dropKey (sortBySeq d.data) key) :=
      List.Pairwise.sublist (dropKey_sublist _ key) hsorted
    rw [List.Sorted, List.pairwise_append]
    refine ⟨h1, List.pairwise_singleton _ _, ?_⟩
    intro a ha b hb
    rw [List.mem_singleton] at hb
    subst hb
    have haData : a ∈ d.data :=
      (sortBySeq_perm d.data).subset ((dropKey_sublist _ key).subset ha)
    exact hlt a haData

theorem Inv_New : Inv New := by decide

theorem Inv_mApply (ops : List (String × String)) :
    ∀ {d : Data}, Inv d → Inv (mApply ops d) := by
  induction ops with
  | nil => intro d h; exact h
  | cons p ops ih => intro d h; exact ih (h.set p.1 p.2)

theorem mapLookup_of_mem {l : List Entry} (h : (keysOf l).Nodup) {e : Entry}
    (he : e ∈ l) : mapLookup l e.key = some e := by
  induction l with
  | nil => cases he
  | cons a as ih =>
    simp only [keysOf, List.map_cons, List.nodup_cons] at h
    rcases List.mem_cons.mp he with rfl | he'
    · rw [mapLookup, if_pos rfl]
    · rw [mapLookup]
      have hne : ¬a.key = e.key := by
        intro hh
        exact h.1 (hh ▸ List.mem_map_of_mem Entry.key he')
      rw [if_neg hne]
      exact ih h.2 he'

/-- On a store with unique keys, `GetAllSlice` pairs each ordered key with
the value stored in its (unique) entry. -/
theorem GetAllSlice_eq {d : Data} (h : (keysOf d.data).Nodup) :
    GetAllSlice (some d) = (sortBySeq d.data).map fun e => ⟨e.key, e.s⟩ := by
  show (Data.orderedKeys d).map _ = _
  rw [Data.orderedKeys, List.map_map]
  apply List.map_congr_left
  intro e he
  have heData : e ∈ d.data := (sortBySeq_perm d.data).subset he
  have : indexS d.data e.key = e.s := by
    rw [indexS, mapLookup_of_mem h heData]
  simp [Function.comp, this]

theorem asPairs_GetAllSlice {d : Data} (h : (keysOf d.data).Nodup) :
    asPairs (GetAllSlice (some d)) = orderedPairs d := by
  rw [GetAllSlice_eq h, asPairs, orderedPairs, List.map_map]
  rfl

theorem filter_map_comm {α β : Type} (g : α → β) (p : β → Bool) (l : List α) :
    (l.map g).filter p = (l.filter fun a => p (g a)).map g := by
  induction l with
  | nil => rfl
  | cons a as ih => by_cases h : p (g a) <;> simp [List.filter_cons, h, ih]

/-- The recurrence satisfied by the ordered snapshot of the mutex store
under one `Set`: the assigned key's previous entry (if any) disappears
from its place, every other entry keeps its relative position, and the
assigned pair appears at the end. -/
theorem orderedPairs_set {d : Data} (h : Inv d) (key value : String) :
    orderedPairs (d.set key value)
      = (orderedPairs d).filter (fun p => !(p.1 == key)) ++ [(key, value)] := by
  show (sortBySeq (mapAssign d.data key value d.order)).map _ = _
  rw [sortBySeq_mapAssign h, List.map_append, orderedPairs, filter_map_comm]
  rfl

end Mutex

namespace Channel

/-- `KeyVal` (part_001 lines 11–14), at value type `String`. -/
structure KeyVal where
  Key : String
  Val : String
deriving DecidableEq, Repr

/-- The slice held in the `Data` channel right after `New` (part_001
lines 33–38): empty. -/
def New : List KeyVal := []

/-- The body of `Set` on an attached store (part_001 lines 66–78): the
first element whose key matches is updated and moved to the end of the
slice (`s[i].Val = val; s = append(s[:i], append(s[i+1:], s[i])...)`);
when none matches, the new pair is appended. -/
def SetSlice : List KeyVal → String → String → List KeyVal
  | [], key, val => [⟨key, val⟩]
  | kv :: rest, key, val =>
    if kv.Key = key then rest ++ [⟨key, val⟩]
    else kv :: SetSlice rest key val

/-- The `error` values of part_001: `ErrNoData` (line 57) and
`ErrNotFound` (line 82). -/
inductive Err where
  | errNoData
  | errNotFound
deriving DecidableEq, Repr

/-- `Set` (part_001 lines 61–79): a nil receiver returns `ErrNoData` and
mutates nothing; otherwise the slice held in the channel is updated. -/
def Set : Option (List KeyVal) → String → String → Option (List KeyVal) × Option Err
  | none, _, _ => (none, some .errNoData)
  | some s, key, val => (some (SetSlice s key val), none)

/-- The scan of `Get` (part_001 lines 94–100). -/
def getLoop : List KeyVal → String → Except Err String
  | [], _ => .error .errNotFound
  | kv :: rest, key => if kv.Key = key then .ok kv.Val else getLoop rest key

/-- `Get` (part_001 lines 86–101): a nil receiver returns `ErrNoData`;
otherwise the first matching pair's value, or `ErrNotFound`. -/
def Get : Option (List KeyVal) → String → Except Err String
  | none, _ => .error .errNoData
  | some s, key => getLoop s key

/-- `GetAllSlice` (part_001 lines 106–117): a nil receiver returns the
nil slice; otherwise a fresh copy of the slice, modelled by its
content. -/
def GetAllSlice : Option (List KeyVal) → List KeyVal
  | none => []
  | some s => s

/-- Writing one pair into a Go map modelled as an association list. -/
def assign : List (String × String) → String → String → List (String × String)
  | [], key, val => [(key, val)]
  | p :: ps, key, val => if p.1 = key then (key, val) :: ps else p :: assign ps key val

/-- `GetAllMap` (part_001 lines 121–134): a nil receiver returns the
empty map; otherwise every pair is written into a fresh map in slice
order. -/
def GetAllMap : Option (List KeyVal) → List (String × String)
  | none => []
  | some s => s.foldl (fun m kv => assign m kv.Key kv.Val) []

/-- Applying a sequence of `Set` calls to an attached store. -/
def cApply : List (String × String) → List KeyVal → List KeyVal
  | [], s => s
  | (key, val) :: ops, s => cApply ops (SetSlice s key val)

/-- The content of a slice snapshot as plain pairs. -/
def asPairs (l : List KeyVal) : List (String × String) :=
  l.map fun kv => (kv.Key, kv.Val)

/-- Heap model for snapshot independence.  Slices live in numbered heap
cells; `store` is the address of the slice currently held in the `Data`
channel; `maps` holds the maps returned by `GetAllMap`, each one a fresh
allocation.  `GetAllSlice` allocates a fresh slice cell and copies the
store's slice into it (`r := make(...); copy(r, s)`, part_001 lines
114–115), returning the new cell's address; `GetAllMap` allocates a
fresh map cell (`m := make(...)`, line 129); `Set` writes through the
store address only. -/
structure Mem where
  cells : List (List KeyVal)
  maps : List (List (String × String))
  store : Nat
deriving Repr

/-- Reading the slice at a heap address. -/
def readCell (m : Mem) (a : Nat) : List KeyVal := (m.cells[a]?).getD []

/-- Reading the map at a heap address. -/
def readMap (m : Mem) (a : Nat) : List (String × String) := (m.maps[a]?).getD []

/-- `Set` acting on the heap: the store's cell is rewritten in place. -/
def memSet (m : Mem) (key val : String) : Mem :=
  ⟨m.cells.set m.store (SetSlice (readCell m m.store) key val), m.maps, m.store⟩

/-- `GetAllSlice` acting on the heap: a fresh cell holding a copy of the
store's slice is allocated and its address returned. -/
def memGetAllSlice (m : Mem) : Nat × Mem :=
  (m.cells.length, ⟨m.cells ++ [readCell m m.store], m.maps, m.store⟩)

/-- `GetAllMap` acting on the heap: a fresh map cell holding the pairs of
the store's slice is allocated and its address returned. -/
def memGetAllMap (m : Mem) : Nat × Mem :=
  (m.maps.length,
   ⟨m.cells, m.maps ++ [GetAllMap (some (readCell m m.store))], m.store⟩)

/-- A sequence of `Set` calls acting on the heap. -/
def memApply : List (String × String) → Mem → Mem
  | [], m => m
  | (key, val) :: ops, m => memApply ops (memSet m key val)

/-- The recurrence satisfied by the channel slice under one `Set`, when
its keys are unique (as they are in every reachable state): the matched
pair is removed from its place and the assigned pair is appended. -/
theorem SetSlice_eq_filter {s : List KeyVal} (key val : String)
    (h : (s.map KeyVal.Key).Nodup) :
    SetSlice s key val
      = s.filter (fun kv => !(kv.Key == key)) ++ [⟨key, val⟩] := by
  induction s with
  | nil => rfl
  | cons kv rest ih =>
    simp only [List.map_cons, List.nodup_cons] at h
    by_cases hk : kv.Key = key
    · rw [SetSlice, if_pos hk, List.filter_cons, if_neg (by simp [hk])]
      have : rest.filter (fun kv => !(kv.Key == key)) = rest := by
        apply List.filter_eq_self.mpr
        intro a ha
        simp only [Bool.not_eq_true', beq_eq_false_iff_ne, ne_eq]
        intro hak
        exact h.1 (hk ▸ hak ▸ List.mem_map_of_mem KeyVal.Key ha)
      rw [this]
    · rw [SetSlice, if_neg hk, List.filter_cons, if_pos (by simp [hk]),
        List.cons_append, ih h.2]

theorem memSet_store (m : Mem) (key val : String) :
    (memSet m key val).store = m.store := rfl

theorem memSet_cells_ne (m : Mem) (key val : String) {a : Nat}
    (h : a ≠ m.store) : (memSet m key val).cells[a]? = m.cells[a]? :=
  List.getElem?_set_ne (fun hh => h hh.symm)

theorem memApply_store (ops : List (String × String)) :
    ∀ (m : Mem), (memApply ops m).store = m.store := by
  induction ops with
  | nil => intro m; rfl
  | cons p ops ih =>
    intro m
    obtain ⟨key, val⟩ := p
    rw [memApply, ih, memSet_store]

theorem memApply_cells_ne (ops : List (String × String)) :
    ∀ (m : Mem) {a : Nat}, a ≠ m.store →
      (memApply ops m).cells[a]? = m.cells[a]? := by
  induction ops with
  | nil => intro m a _; rfl
  | cons p ops ih =>
    intro m a h
    obtain ⟨key, val⟩ := p
    rw [memApply, ih _ (by rw [memSet_store]; exact h), memSet_cells_ne m key val h]

theorem memApply_maps (ops : List (String × String)) :
    ∀ (m : Mem), (memApply ops m).maps = m.maps := by
  induction ops with
  | nil => intro m; rfl
  | cons p ops ih =>
    intro m
    obtain ⟨key, val⟩ := p
    rw [memApply, ih]
    rfl

theorem key_not_mem_filterKV (s : List KeyVal) (key : String) :
    key ∉ (s.filter fun kv => !(kv.Key == key)).map KeyVal.Key := by
  intro h
  obtain ⟨a, ha, hak⟩ := List.mem_map.mp h
  have := List.of_mem_filter ha
  simp [hak] at this

theorem getLoop_eq_error {s : List KeyVal} {key : String}
    (h : key ∉ s.map KeyVal.Key) : getLoop s key = .error .errNotFound := by
  induction s with
  | nil => rfl
  | cons kv rest ih =>
    simp only [List.map_cons, List.mem_cons, not_or] at h
    rw [getLoop, if_neg fun hh => h.1 hh.symm]
    exact ih h.2

theorem getLoop_append_of_not_mem {l₁ : List KeyVal} {key : String}
    (h : key ∉ l₁.map KeyVal.Key) (l₂ : List KeyVal) :
    getLoop (l₁ ++ l₂) key = getLoop l₂ key := by
  induction l₁ with
  | nil => rfl
  | cons kv rest ih =>
    simp only [List.map_cons, List.mem_cons, not_or] at h
    rw [List.cons_append, getLoop, if_neg fun hh => h.1 hh.symm]
    exact ih h.2

/-- On a slice with unique keys — as every reachable store slice has —
`Get` right after `Set key val` finds exactly `val`. -/
theorem getLoop_SetSlice_self {s : List KeyVal} (h : (s.map KeyVal.Key).Nodup)
    (key val : String) : getLoop (SetSlice s key val) key = .ok val := by
  rw [SetSlice_eq_filter key val h,
    getLoop_append_of_not_mem (key_not_mem_filterKV s key), getLoop, if_pos rfl]

theorem keys_SetSlice_subset (s : List KeyVal) (key val : String) :
    ∀ a ∈ (SetSlice s key val).map KeyVal.Key, a = key ∨ a ∈ s.map KeyVal.Key := by
  induction s with
  | nil =>
    intro a ha
    simp only [SetSlice, List.map_cons, List.map_nil, List.mem_singleton] at ha
    exact Or.inl ha
  | cons kv rest ih =>
    intro a ha
    by_cases hk : kv.Key = key
    · rw [SetSlice, if_pos hk, List.map_append] at ha
      rcases List.mem_append.mp ha with h1 | h1
      · simp only [List.map_cons, List.mem_cons]
        exact Or.inr (Or.inr h1)
      · simp only [List.map_cons, List.map_nil, List.mem_singleton] at h1
        exact Or.inl h1
    · rw [SetSlice, if_neg hk] at ha
      simp only [List.map_cons, List.mem_cons] at ha ⊢
      rcases ha with rfl | ha
      · exact Or.inr (Or.inl rfl)
      · rcases ih a ha with h1 | h1
        · exact Or.inl h1
        · exact Or.inr (Or.inr h1)

theorem keys_cApply_subset (ops : List (String × String)) :
    ∀ {s : List KeyVal} {a : String}, a ∈ (cApply ops s).map KeyVal.Key →
      a ∈ ops.map Prod.fst ∨ a ∈ s.map KeyVal.Key := by
  induction ops with
  | nil => intro s a h; exact Or.inr h
  | cons p ops ih =>
    intro s a h
    obtain ⟨key, val⟩ := p
    rcases ih h with h1 | h1
    · exact Or.inl (List.mem_cons_of_mem _ h1)
    · rcases keys_SetSlice_subset s key val a h1 with h2 | h2
      · exact Or.inl (h2 ▸ List.mem_cons_self _ _)
      · exact Or.inr h2

end Channel

namespace Mutex

theorem mapLookup_eq_none {l : List Entry} {key : String}
    (h : key ∉ keysOf l) : mapLookup l key = none := by
  induction l with
  | nil => rfl
  | cons e es ih =>
    simp only [keysOf, List.map_cons, List.mem_cons, not_or] at h
    rw [mapLookup, if_neg fun hh => h.1 hh.symm]
    exact ih h.2

theorem mapLookup_mapAssign_self (l : List Entry) (key value : String) (n : Nat) :
    mapLookup (mapAssign l key value n) key = some ⟨key, value, n⟩ := by
  induction l with
  | nil => simp [mapAssign, mapLookup]
  | cons e es ih =>
    by_cases h : e.key = key
    · rw [mapAssign, if_pos h, mapLookup, if_pos rfl]
    · rw [mapAssign, if_neg h, mapLookup, if_neg h]
      exact ih

theorem keysOf_mapAssign_subset (l : List Entry) (key value : String) (n : Nat) :
    ∀ a ∈ keysOf (mapAssign l key value n), a = key ∨ a ∈ keysOf l := by
  induction l with
  | nil =>
    intro a ha
    simp only [mapAssign, keysOf, List.map_cons, List.map_nil, List.mem_singleton] at ha
    exact Or.inl ha
  | cons e es ih =>
    intro a ha
    by_cases h : e.key = key
    · rw [mapAssign, if_pos h] at ha
      simp only [keysOf, List.map_cons, List.mem_cons] at ha ⊢
      rcases ha with rfl | ha
      · exact Or.inl rfl
      · exact Or.inr (Or.inr ha)
    · rw [mapAssign, if_neg h] at ha
      simp only [keysOf, List.map_cons, List.mem_cons] at ha ⊢
      rcases ha with rfl | ha
      · exact Or.inr (Or.inl rfl)
      · rcases ih a ha with h1 | h1
        · exact Or.inl h1
        · exact Or.inr (Or.inr h1)

theorem keysOf_mApply_subset (ops : List (String × String)) :
    ∀ {d : Data} {a : String}, a ∈ keysOf (mApply ops d).data →
      a ∈ ops.map Prod.fst ∨ a ∈ keysOf d.data := by
  induction ops with
  | nil => intro d a h; exact Or.inr h
  | cons p ops ih =>
    intro d a h
    obtain ⟨key, value⟩ := p
    rcases ih h with h1 | h1
    · exact Or.inl (List.mem_cons_of_mem _ h1)
    · rcases keysOf_mapAssign_subset d.data key value d.order a h1 with h2 | h2
      · exact Or.inl (h2 ▸ List.mem_cons_self _ _)
      · exact Or.inr h2

theorem fst_mem_keysOf_of_mem_orderedPairs {d : Data} {p : String × String}
    (h : p ∈ orderedPairs d) : p.1 ∈ keysOf d.data := by
  obtain ⟨e, he, rfl⟩ := List.mem_map.mp h
  exact List.mem_map_of_mem Entry.key ((sortBySeq_perm d.data).subset he)

/-- A run of `Set` calls with pairwise distinct keys, all of them new to
the store, appends the written pairs to the ordered snapshot in call
order. -/
theorem orderedPairs_mApply_fresh (ops : List (String × String)) :
    ∀ {d : Data}, Inv d → (ops.map Prod.fst).Nodup →
      (∀ p ∈ ops, p.1 ∉ keysOf d.data) →
      orderedPairs (mApply ops d) = orderedPairs d ++ ops := by
  induction ops with
  | nil => intro d _ _ _; simp [mApply]
  | cons p ops ih =>
    intro d hInv hnodup hfresh
    obtain ⟨key, value⟩ := p
    simp only [List.map_cons, List.nodup_cons] at hnodup
    have hfresh' : ∀ q ∈ ops, q.1 ∉ keysOf (d.set key value).data := by
      intro q hq hmem
      rcases keysOf_mapAssign_subset d.data key value d.order q.1 hmem with h1 | h1
      · exact hnodup.1 (h1 ▸ List.mem_map_of_mem Prod.fst hq)
      · exact hfresh q (List.mem_cons_of_mem _ hq) h1
    have hfilter : (orderedPairs d).filter (fun q => !(q.1 == key)) = orderedPairs d := by
      apply List.filter_eq_self.mpr
      intro a ha
      simp only [Bool.not_eq_true', beq_eq_false_iff_ne, ne_eq]
      intro hak
      have hmem := fst_mem_keysOf_of_mem_orderedPairs ha
      rw [hak] at hmem
      exact hfresh (key, value) (List.mem_cons_self _ _) hmem
    show orderedPairs (mApply ops (d.set key value)) = _
    rw [ih (hInv.set key value) hnodup.2 hfresh', orderedPairs_set hInv key value,
      hfilter, List.append_assoc, List.singleton_append]

end Mutex

/-- One `Set` advances the two implementations in lockstep: if the
channel slice holds exactly the mutex store's ordered snapshot, it still
does after applying the same sequence of `Set` calls to both. -/
theorem cApply_simulates (ops : List (String × String)) :
    ∀ {d : Mutex.Data} {s : List Channel.KeyVal}, Mutex.Inv d →
      Channel.asPairs s = Mutex.orderedPairs d →
      Channel.asPairs (Channel.cApply ops s)
        = Mutex.orderedPairs (Mutex.mApply ops d) := by
  induction ops with
  | nil => intro d s _ hrel; exact hrel
  | cons p ops ih =>
    intro d s hInv hrel
    obtain ⟨key, val⟩ := p
    have hkeys : s.map Channel.KeyVal.Key
        = (Mutex.sortBySeq d.data).map Mutex.Entry.key := by
      have h := congrArg (List.map Prod.fst) hrel
      simpa [Channel.asPairs, Mutex.orderedPairs, List.map_map, Function.comp] using h
    have hnodup : (s.map Channel.KeyVal.Key).Nodup := by
      rw [hkeys]
      exact (((Mutex.sortBySeq_perm d.data).map Mutex.Entry.key).nodup_iff).mpr hInv.1
    show Channel.asPairs (Channel.cApply ops (Channel.SetSlice s key val)) = _
    apply ih (hInv.set key val)
    have hfilter : (Channel.asPairs s).filter (fun q => !(q.1 == key))
        = Channel.asPairs (s.filter fun kv => !(kv.Key == key)) := by
      rw [Channel.asPairs, Mutex.filter_map_comm]
      rfl
    calc Channel.asPairs (Channel.SetSlice s key val)
        = Channel.asPairs (s.filter fun kv => !(kv.Key == key)) ++ [(key, val)] := by
          rw [Channel.SetSlice_eq_filter key val hnodup, Channel.asPairs,
            List.map_append]
          rfl
      _ = (Channel.asPairs s).filter (fun q => !(q.1 == key)) ++ [(key, val)] := by
          rw [hfilter]
      _ = (Mutex.orderedPairs d).filter (fun q => !(q.1 == key)) ++ [(key, val)] := by
          rw [hrel]
      _ = Mutex.orderedPairs (d.set key val) :=
          (Mutex.orderedPairs_set hInv key val).symm

/-- Every channel store slice reachable from `New` by `Set` calls has
pairwise distinct keys: it equals the mutex store's ordered snapshot,
whose keys are unique by the store invariant. -/
theorem cApply_New_keys_nodup (ops : List (String × String)) :
    ((Channel.cApply ops Channel.New).map Channel.KeyVal.Key).Nodup := by
  have hInv := Mutex.Inv_mApply ops Mutex.Inv_New
  have hbase : Channel.asPairs Channel.New = Mutex.orderedPairs Mutex.New := rfl
  have hrel := cApply_simulates ops Mutex.Inv_New hbase
  have hkeys : (Channel.cApply ops Channel.New).map Channel.KeyVal.Key
      = (Mutex.sortBySeq (Mutex.mApply ops Mutex.New).data).map Mutex.Entry.key := by
    have h := congrArg (List.map Prod.fst) hrel
    simpa [Channel.asPairs, Mutex.orderedPairs, List.map_map, Function.comp] using h
  rw [hkeys]
  exact (((Mutex.sortBySeq_perm _).map Mutex.Entry.key).nodup_iff).mpr hInv.1

namespace Mutex

theorem walkTrace_snd {ε : Type} (l : List Entry) (fn : String → String → Option ε)
    (ks : List String) : (walkTrace l fn ks).2 = walkLoop l fn ks := by
  induction ks with
  | nil => rfl
  | cons k ks ih =>
    cases h : fn k (indexS l k) with
    | some e => simp [walkTrace, walkLoop, h]
    | none => simp [walkTrace, walkLoop, h, ih]

theorem WalkTrace_snd {ε : Type} (od : Option Data) (fn : String → String → Option ε) :
    (WalkTrace od fn).2 = Walk od fn := by
  cases od with
  | none => rfl
  | some d =>
    rw [WalkTrace, Walk]
    cases h : walkLoop d.data fn d.orderedKeys with
    | some e => simp [walkTrace_snd, h]
    | none => simp [walkTrace_snd, h]

theorem walkTrace_all_none {ε : Type} {l : List Entry} {fn : String → String → Option ε} :
    ∀ {es : List Entry}, (∀ e ∈ es, indexS l e.key = e.s) →
      (∀ e ∈ es, fn e.key e.s = none) →
      walkTrace l fn (es.map Entry.key) = (es.map fun e => (e.key, e.s), none) := by
  intro es
  induction es with
  | nil => intro _ _; rfl
  | cons e es ih =>
    intro hidx hnone
    have h1 : indexS l e.key = e.s := hidx e (List.mem_cons_self e es)
    have h2 : fn e.key (indexS l e.key) = none := by rw [h1]; exact hnone e (List.mem_cons_self e es)
    have ihr := ih (fun a ha => hidx a (List.mem_cons_of_mem e ha))
      (fun a ha => hnone a (List.mem_cons_of_mem e ha))
    simp [walkTrace, h1, h2, hnone e (List.mem_cons_self e es), ihr]

theorem walkTrace_first_err {ε : Type} {l : List Entry} {fn : String → String → Option ε}
    {e₀ : Entry} {err : ε} :
    ∀ {es₁ es₂ : List Entry},
      (∀ e ∈ es₁ ++ e₀ :: es₂, indexS l e.key = e.s) →
      (∀ e ∈ es₁, fn e.key e.s = none) → fn e₀.key e₀.s = some err →
      walkTrace l fn ((es₁ ++ e₀ :: es₂).map Entry.key)
        = ((es₁.map fun e => (e.key, e.s)) ++ [(e₀.key, e₀.s)], some err) := by
  intro es₁
  induction es₁ with
  | nil =>
    intro es₂ hidx _ herr
    have h1 : indexS l e₀.key = e₀.s := hidx e₀ (by simp)
    have h2 : fn e₀.key (indexS l e₀.key) = some err := by rw [h1]; exact herr
    simp [walkTrace, h1, h2, herr]
  | cons e es ih =>
    intro es₂ hidx hnone herr
    have h1 : indexS l e.key = e.s := hidx e (by simp)
    have h2 : fn e.key (indexS l e.key) = none := by
      rw [h1]; exact hnone e (List.mem_cons_self e es)
    have ihr := @ih es₂ (fun a ha => hidx a (by simp at ha ⊢; tauto))
      (fun a ha => hnone a (List.mem_cons_of_mem e ha)) herr
    simp only [List.map_append, List.map_cons] at ihr
    simp [walkTrace, h1, h2, hnone e (List.mem_cons_self e es), ihr]

theorem Inv_stepOp {d : Data} (h : Inv d) (op : Op) : Inv (stepOp d op) := by
  cases op with
  | set key value => exact h.set key value
  | get key => exact h
  | getDefault key fallback => exact h
  | getAll => exact h
  | getAllSlice => exact h
  | walk => exact h

theorem order_le_stepOp (d : Data) (op : Op) : d.order ≤ (stepOp d op).order := by
  cases op with
  | set key value => exact Nat.le_succ d.order
  | get key => exact Nat.le_refl _
  | getDefault key fallback => exact Nat.le_refl _
  | getAll => exact Nat.le_refl _
  | getAllSlice => exact Nat.le_refl _
  | walk => exact Nat.le_refl _

theorem Inv_runOps (ops : List Op) : ∀ {d : Data}, Inv d → Inv (runOps ops d) := by
  induction ops with
  | nil => intro d h; exact h
  | cons op ops ih => intro d h; exact ih (Inv_stepOp h op)

theorem order_le_runOps (ops : List Op) : ∀ (d : Data), d.order ≤ (runOps ops d).order := by
  induction ops with
  | nil => intro d; exact Nat.le_refl _
  | cons op ops ih =>
    intro d
    exact Nat.le_trans (order_le_stepOp d op) (ih (stepOp d op))

/-- All live entries record a value the store was told to hold for their
key; interpretation of `indexS` on entries of a store with unique keys. -/
theorem indexS_of_mem {d : Data} (h : (keysOf d.data).Nodup) {e : Entry}
    (he : e ∈ d.data) : indexS d.data e.key = e.s := by
  rw [indexS, mapLookup_of_mem h he]

theorem mmemApply_maps (ops : List (String × String)) :
    ∀ (m : MMem), (mmemApply ops m).maps = m.maps := by
  induction ops with
  | nil => intro m; rfl
  | cons p ops ih =>
    intro m
    obtain ⟨key, value⟩ := p
    rw [mmemApply, ih]
    rfl

theorem mmemApply_slices (ops : List (String × String)) :
    ∀ (m : MMem), (mmemApply ops m).slices = m.slices := by
  induction ops with
  | nil => intro m; rfl
  | cons p ops ih =>
    intro m
    obtain ⟨key, value⟩ := p
    rw [mmemApply, ih]
    rfl

end Mutex

/-- C1 (counterexample): after `Set("a","1"); Set("b","2"); Set("c","3");
Set("a","4"); Set("d","5")` on a fresh store, `GetAllSlice` returns
`[("b","2"),("c","3"),("a","4"),("d","5")]` — the overwritten key `"a"`
has moved to the end of the order, because `Set` stamps it with a fresh
sequence number — and not the first-write-wins sequence
`[("a","4"),("b","2"),("c","3"),("d","5")]` the claim asserts. -/
theorem C1_counterexample :
    Mutex.asPairs (Mutex.GetAllSlice (some (Mutex.mApply
        [("a","1"),("b","2"),("c","3"),("a","4"),("d","5")] Mutex.New)))
      = [("b","2"),("c","3"),("a","4"),("d","5")]
    ∧ Mutex.asPairs (Mutex.GetAllSlice (some (Mutex.mApply
        [("a","1"),("b","2"),("c","3"),("a","4"),("d","5")] Mutex.New)))
      ≠ [("a","4"),("b","2"),("c","3"),("d","5")] := by
  exact ⟨by decide, by decide⟩

/-- C1 (amended): overwriting an already-present key replaces its value
and moves the key to the end of the ordered snapshot (last-write order):
after any sequence of `Set` calls from `New`, a further `Set key value`
yields the previous ordered snapshot with the entry for `key` removed and
`(key, value)` appended; in particular the claim's scenario yields
`[("b","2"),("c","3"),("a","4"),("d","5")]`. -/
theorem C1_overwrite_moves_key_to_end :
    (∀ (ops : List (String × String)) (key value : String),
      Mutex.asPairs (Mutex.GetAllSlice (some ((Mutex.mApply ops Mutex.New).set key value)))
        = (Mutex.asPairs (Mutex.GetAllSlice (some (Mutex.mApply ops Mutex.New)))).filter
            (fun p => !(p.1 == key)) ++ [(key, value)])
    ∧ Mutex.asPairs (Mutex.GetAllSlice (some (Mutex.mApply
        [("a","1"),("b","2"),("c","3"),("a","4"),("d","5")] Mutex.New)))
      = [("b","2"),("c","3"),("a","4"),("d","5")] := by
  constructor
  · intro ops key value
    have hInv := Mutex.Inv_mApply ops Mutex.Inv_New
    rw [Mutex.asPairs_GetAllSlice (hInv.set key value).1,
      Mutex.asPairs_GetAllSlice hInv.1, Mutex.orderedPairs_set hInv key value]
  · decide

/-- C2: a sequence of `Set` calls with pairwise distinct keys, applied to
a fresh store, makes `GetAllSlice` return exactly one entry per call, in
call order, each carrying the value that was set. -/
theorem C2_distinct_keys_call_order (ops : List (String × String))
    (h : (ops.map Prod.fst).Nodup) :
    Mutex.asPairs (Mutex.GetAllSlice (some (Mutex.mApply ops Mutex.New))) = ops := by
  have hInv := Mutex.Inv_mApply ops Mutex.Inv_New
  rw [Mutex.asPairs_GetAllSlice hInv.1]
  have hfresh : ∀ p ∈ ops, p.1 ∉ Mutex.keysOf Mutex.New.data := by
    intro p _ hmem
    simp [Mutex.New, Mutex.keysOf] at hmem
  rw [Mutex.orderedPairs_mApply_fresh ops Mutex.Inv_New h hfresh]
  rfl

theorem C2_witness :
    ([("a","1"),("b","2")].map Prod.fst).Nodup
    ∧ Mutex.asPairs (Mutex.GetAllSlice (some (Mutex.mApply
        [("a","1"),("b","2")] Mutex.New))) = [("a","1"),("b","2")] :=
  ⟨by decide, C2_distinct_keys_call_order [("a","1"),("b","2")] (by decide)⟩

/-- C3: `Set` on a nil store reference returns the no-store error
(`ErrNilData` in data.go, `ErrNoData` in part_001) and performs no
mutation: the receiver is unchanged and the call is an ordinary total
function (no crash). -/
theorem C3_set_nil_no_store (key value : String) :
    Mutex.Set none key value = (none, some Mutex.Err.errNilData)
    ∧ Channel.Set none key value = (none, some Channel.Err.errNoData) :=
  ⟨rfl, rfl⟩

/-- C4 (counterexample): in the primary implementation (data.go), `Get`
on a nil store reference does NOT fail with an error: its return type
carries no error at all, and the call returns `("", false)` — exactly the
ordinary not-found result an attached empty store gives. -/
theorem C4_counterexample :
    Mutex.Get none "k" = ("", false)
    ∧ Mutex.Get none "k" = Mutex.Get (some Mutex.New) "k" :=
  ⟨rfl, rfl⟩

/-- C4 (amended): `Get` on a nil store reference returns the ordinary
not-found result `("", false)` in the map-based implementation (data.go),
indistinguishable from a missing key on an attached store; only the
channel implementation (part_001) fails with `ErrNoData` there. -/
theorem C4_get_nil_behavior (key : String) :
    Mutex.Get none key = ("", false)
    ∧ Mutex.Get none key = Mutex.Get (some Mutex.New) key
    ∧ Channel.Get none key = Except.error Channel.Err.errNoData :=
  ⟨rfl, rfl, rfl⟩

/-- C5: every snapshot returned by a read operation is an independent
copy.  In the heap models, each of data.go's `GetAll` (map form) and
`GetAllSlice` (ordered form) and part_001's `GetAllSlice` and
`GetAllMap` allocates a fresh cell for its result, and `Set` writes only
through the store — the `Data` object for data.go, the store's slice
cell for part_001 — so after any later sequence of `Set` calls the
returned snapshot cell still holds exactly the content observed when the
snapshot was taken. -/
theorem C5_snapshot_immutable :
    (∀ (m : Mutex.MMem) (ops : List (String × String)),
      Mutex.readMapCell (Mutex.mmemApply ops (Mutex.mmemGetAll m).2)
          (Mutex.mmemGetAll m).1
        = Mutex.GetAll (some m.store))
    ∧ (∀ (m : Mutex.MMem) (ops : List (String × String)),
      Mutex.readSliceCell (Mutex.mmemApply ops (Mutex.mmemGetAllSlice m).2)
          (Mutex.mmemGetAllSlice m).1
        = Mutex.GetAllSlice (some m.store))
    ∧ (∀ (m : Channel.Mem), m.store < m.cells.length →
      ∀ (ops : List (String × String)),
      Channel.readCell (Channel.memApply ops (Channel.memGetAllSlice m).2)
          (Channel.memGetAllSlice m).1
        = Channel.readCell m m.store)
    ∧ (∀ (m : Channel.Mem) (ops : List (String × String)),
      Channel.readMap (Channel.memApply ops (Channel.memGetAllMap m).2)
          (Channel.memGetAllMap m).1
        = Channel.GetAllMap (some (Channel.readCell m m.store))) := by
  refine ⟨?_, ?_, ?_, ?_⟩
  · intro m ops
    rw [Mutex.readMapCell, Mutex.mmemApply_maps]
    show ((m.maps ++ [Mutex.GetAll (some m.store)])[m.maps.length]?).getD [] = _
    rw [List.getElem?_concat_length]
    rfl
  · intro m ops
    rw [Mutex.readSliceCell, Mutex.mmemApply_slices]
    show ((m.slices ++ [Mutex.GetAllSlice (some m.store)])[m.slices.length]?).getD [] = _
    rw [List.getElem?_concat_length]
    rfl
  · intro m h ops
    have hne : (Channel.memGetAllSlice m).1 ≠ (Channel.memGetAllSlice m).2.store := by
      show m.cells.length ≠ m.store
      omega
    rw [Channel.readCell, Channel.memApply_cells_ne ops _ hne]
    show ((m.cells ++ [Channel.readCell m m.store])[m.cells.length]?).getD [] = _
    rw [List.getElem?_concat_length]
    rfl
  · intro m ops
    rw [Channel.readMap, Channel.memApply_maps]
    show ((m.maps ++ [Channel.GetAllMap (some (Channel.readCell m m.store))])[m.maps.length]?).getD []
      = _
    rw [List.getElem?_concat_length]
    rfl

theorem C5_witness :
    (⟨[[⟨"a","1"⟩]], [], 0⟩ : Channel.Mem).store
      < (⟨[[⟨"a","1"⟩]], [], 0⟩ : Channel.Mem).cells.length
    ∧ Channel.readCell (Channel.memApply [("a","2")]
        (Channel.memGetAllSlice ⟨[[⟨"a","1"⟩]], [], 0⟩).2)
        (Channel.memGetAllSlice (⟨[[⟨"a","1"⟩]], [], 0⟩ : Channel.Mem)).1
      = Channel.readCell ⟨[[⟨"a","1"⟩]], [], 0⟩ 0
    ∧ Mutex.readMapCell (Mutex.mmemApply [("a","2")]
        (Mutex.mmemGetAll ⟨Mutex.mApply [("a","1")] Mutex.New, [], []⟩).2)
        (Mutex.mmemGetAll (⟨Mutex.mApply [("a","1")] Mutex.New, [], []⟩ : Mutex.MMem)).1
      = Mutex.GetAll (some (Mutex.mApply [("a","1")] Mutex.New)) :=
  ⟨by decide,
   C5_snapshot_immutable.2.2.1 ⟨[[⟨"a","1"⟩]], [], 0⟩ (by decide) [("a","2")],
   C5_snapshot_immutable.1 ⟨Mutex.mApply [("a","1")] Mutex.New, [], []⟩ [("a","2")]⟩

/-- C6: `Walk` invokes the visitor exactly once per stored entry in the
snapshot order (the entries sorted by sequence number), stops at the
first entry whose visit returns an error and propagates that error, and
on a nil receiver returns `ErrNilData` without invoking the visitor; the
instrumented `WalkTrace` computes exactly `Walk`'s result. -/
theorem C6_walk (ε : Type) :
    (∀ (fn : String → String → Option ε),
      Mutex.WalkTrace (none : Option Mutex.Data) fn
        = ([], some Mutex.WalkErr.errNilData))
    ∧ (∀ (fn : String → String → Option ε) (d : Mutex.Data), Mutex.Inv d →
        (∀ e ∈ Mutex.sortBySeq d.data, fn e.key e.s = none) →
        Mutex.WalkTrace (some d) fn = (Mutex.orderedPairs d, none))
    ∧ (∀ (fn : String → String → Option ε) (d : Mutex.Data)
        (es₁ : List Mutex.Entry) (e₀ : Mutex.Entry) (es₂ : List Mutex.Entry) (err : ε),
        Mutex.Inv d → Mutex.sortBySeq d.data = es₁ ++ e₀ :: es₂ →
        (∀ e ∈ es₁, fn e.key e.s = none) → fn e₀.key e₀.s = some err →
        Mutex.WalkTrace (some d) fn
          = ((es₁.map fun e => (e.key, e.s)) ++ [(e₀.key, e₀.s)],
             some (Mutex.WalkErr.fnErr err)))
    ∧ (∀ (fn : String → String → Option ε) (od : Option Mutex.Data),
        (Mutex.WalkTrace od fn).2 = Mutex.Walk od fn) := by
  refine ⟨fun fn => rfl, ?_, ?_, fun fn od => Mutex.WalkTrace_snd od fn⟩
  · intro fn d hInv hnone
    have hidx : ∀ e ∈ Mutex.sortBySeq d.data, Mutex.indexS d.data e.key = e.s :=
      fun e he => Mutex.indexS_of_mem hInv.1 ((Mutex.sortBySeq_perm d.data).subset he)
    have h := @Mutex.walkTrace_all_none ε d.data fn (Mutex.sortBySeq d.data) hidx hnone
    simp only [Mutex.WalkTrace, Mutex.Data.orderedKeys, h]
    rfl
  · intro fn d es₁ e₀ es₂ err hInv hsplit hnone herr
    have hidx : ∀ e ∈ es₁ ++ e₀ :: es₂, Mutex.indexS d.data e.key = e.s := by
      intro e he
      rw [← hsplit] at he
      exact Mutex.indexS_of_mem hInv.1 ((Mutex.sortBySeq_perm d.data).subset he)
    have h := @Mutex.walkTrace_first_err ε d.data fn e₀ err es₁ es₂ hidx hnone herr
    simp only [Mutex.WalkTrace, Mutex.Data.orderedKeys, hsplit, h]
    rfl

theorem C6_witness :
    Mutex.WalkTrace (some (Mutex.mApply [("a","1"),("b","2")] Mutex.New))
        (fun k _ => if k = "b" then some 0 else none)
      = ([("a","1"),("b","2")], some (Mutex.WalkErr.fnErr 0)) :=
  (C6_walk Nat).2.2.1 (fun k _ => if k = "b" then some 0 else none)
    (Mutex.mApply [("a","1"),("b","2")] Mutex.New)
    [⟨"a","1",0⟩] ⟨"b","2",1⟩ [] 0 (by decide) (by decide) (by decide) (by decide)

/-- C7: on an attached store, `Get` of a key that was never set yields a
dedicated not-found indicator, while a key set to the zero value (the
empty string) yields a successful retrieval — so absence is
distinguishable from a stored zero value.  In data.go the indicator is
`found = false` versus `("", true)`; in part_001 it is the explicit
error value `ErrNotFound` versus `ok ""`. -/
theorem C7_not_found_vs_zero_value :
    (∀ (ops : List (String × String)) (key : String),
      key ∉ ops.map Prod.fst →
      Mutex.Get (some (Mutex.mApply ops Mutex.New)) key = ("", false))
    ∧ (∀ (d : Mutex.Data) (key : String),
      Mutex.Get (some (d.set key "")) key = ("", true))
    ∧ (∀ (ops : List (String × String)) (key : String),
      key ∉ ops.map Prod.fst →
      Channel.Get (some (Channel.cApply ops Channel.New)) key
        = Except.error Channel.Err.errNotFound)
    ∧ (∀ (ops : List (String × String)) (key : String),
      Channel.Get (some (Channel.SetSlice (Channel.cApply ops Channel.New) key "")) key
        = Except.ok "") := by
  refine ⟨?_, ?_, ?_, ?_⟩
  · intro ops key h
    have hnone : Mutex.mapLookup (Mutex.mApply ops Mutex.New).data key = none := by
      apply Mutex.mapLookup_eq_none
      intro hmem
      rcases Mutex.keysOf_mApply_subset ops hmem with h1 | h1
      · exact h h1
      · simp [Mutex.New, Mutex.keysOf] at h1
    simp [Mutex.Get, hnone]
  · intro d key
    simp [Mutex.Get, Mutex.Data.set, Mutex.mapLookup_mapAssign_self]
  · intro ops key h
    apply Channel.getLoop_eq_error
    intro hmem
    rcases Channel.keys_cApply_subset ops hmem with h1 | h1
    · exact h h1
    · simp [Channel.New] at h1
  · intro ops key
    exact Channel.getLoop_SetSlice_self (cApply_New_keys_nodup ops) key ""

theorem C7_witness :
    "b" ∉ ([("a","1")].map Prod.fst)
    ∧ Mutex.Get (some (Mutex.mApply [("a","1")] Mutex.New)) "b" = ("", false)
    ∧ Mutex.Get (some (Mutex.New.set "z" "")) "z" = ("", true)
    ∧ Channel.Get (some (Channel.cApply [("a","1")] Channel.New)) "b"
        = Except.error Channel.Err.errNotFound
    ∧ Channel.Get (some (Channel.SetSlice (Channel.cApply [("a","1")] Channel.New) "z" "")) "z"
        = Except.ok "" :=
  ⟨by decide, C7_not_found_vs_zero_value.1 [("a","1")] "b" (by decide),
   C7_not_found_vs_zero_value.2.1 Mutex.New "z",
   C7_not_found_vs_zero_value.2.2.1 [("a","1")] "b" (by decide),
   C7_not_found_vs_zero_value.2.2.2 [("a","1")] "z"⟩

/-- C8: the mapping-form snapshot called on a nil store reference returns
an empty mapping — zero key/value pairs — and not an error, in both the
map-based implementation (`GetAll`, which returns the nil map) and the
channel implementation (`GetAllMap`, which returns a fresh empty map). -/
theorem C8_getall_nil_empty :
    Mutex.GetAll (none : Option Mutex.Data) = []
    ∧ Channel.GetAllMap (none : Option (List Channel.KeyVal)) = [] :=
  ⟨rfl, rfl⟩

/-- C9: in every state reachable from `New` by a sequence of
Set/Get/GetDefault/GetAll/GetAllSlice/Walk operations, each key has at
most one live entry, the live sequence numbers are pairwise distinct (so
enumeration order is the total order they induce) and lie below the
write counter, and the write counter never decreases across any further
sequence of operations. -/
theorem C9_invariants (ops : List Mutex.Op) :
    Mutex.Inv (Mutex.runOps ops Mutex.New)
    ∧ ∀ (more : List Mutex.Op),
        (Mutex.runOps ops Mutex.New).order
          ≤ (Mutex.runOps more (Mutex.runOps ops Mutex.New)).order :=
  ⟨Mutex.Inv_runOps ops Mutex.Inv_New,
   fun more => Mutex.order_le_runOps more _⟩

/-- C10: for every finite sequence of `Set(key, value)` calls with string
values applied to fresh stores of each implementation, the
mutex-and-sequence-number implementation (data.go) and the
channel-and-slice implementation (part_001) produce the same ordered
snapshot: `GetAllSlice` yields the same key/value sequence in both. -/
theorem C10_implementations_agree (ops : List (String × String)) :
    Mutex.asPairs (Mutex.GetAllSlice (some (Mutex.mApply ops Mutex.New)))
      = Channel.asPairs (Channel.GetAllSlice (some (Channel.cApply ops Channel.New))) := by
  have hInv := Mutex.Inv_mApply ops Mutex.Inv_New
  rw [Mutex.asPairs_GetAllSlice hInv.1]
  have hbase : Channel.asPairs Channel.New = Mutex.orderedPairs Mutex.New := rfl
  have h := cApply_simulates ops Mutex.Inv_New hbase
  exact h.symm

end Ctxdata
